import Mathlib

/-!
# fm_transmitter: the `Transmitter` class of `src/transmitter.cpp`

A shallow embedding of the constructor, of `transmit` and of the destructor.

* Register accesses and system calls are recorded as events, in program order.
* Values the code obtains from outside (the result of `open`, the result of `mmap`, the
  previous content of the GPIO function-select register, the readings of the system
  timer counter) are inputs of the model.
* `unsigned int` and `unsigned long long` are naturals reduced modulo `2^32` and `2^64`.
* Finite `double` and `float` values are rationals.  An arithmetic operation on `double`
  yields its exact result rounded to binary64 (`toBinary64`: 53 significant bits, round to
  nearest, ties to even, gradual underflow, overflow to an infinity); the quotient and the
  sum of line 73 are each rounded so.  For the samples no rounding occurs on a finite
  `float`: the promotion to `double`, the product with `16.0` and `round` are exact.
* A conversion from floating point to an integer type whose truncated value does not fit
  the target type has no defined result in C++; the model returns `none` there.
-/

namespace FmTransmitter

/-! ## Register map (the `#define`s of the source) -/

/-- Base address for BCM2835 peripherals register memory. -/
def BCM2835_BASE : Nat := 0x3F000000

/-- Base address for GPIO control registers (relative to the peripherals block). -/
def GPIO_BASE : Nat := 0x00200000

/-- Base address for GPC0 control registers (relative to the peripherals block). -/
def CLK0_BASE : Nat := 0x00101070

/-- Base address for GPC0 divisor control registers (relative to the peripherals block). -/
def CLK0D_BASE : Nat := 0x00101074

/-- Base address for the System Time Counter (relative to the peripherals block). -/
def SYST_BASE : Nat := 0x00003000

/-! ## Floating point and machine integers -/

/-- C `round`: the nearest integer, halfway cases rounded away from zero. -/
def roundHalfAway (x : ℚ) : ℤ :=
  if 0 ≤ x then ⌊x + 1 / 2⌋ else -⌊-x + 1 / 2⌋

/-- Rounding to the nearest integer, a tie going to the even neighbour. -/
def roundTiesEven (y : ℚ) : ℤ :=
  if y - ⌊y⌋ < 1 / 2 then ⌊y⌋
  else if 1 / 2 < y - ⌊y⌋ then ⌊y⌋ + 1
  else if ⌊y⌋ % 2 = 0 then ⌊y⌋
  else ⌊y⌋ + 1

/-- The binary64 result of an operation whose exact result is `x`: with `e` the exponent of
the binade of `x`, at least -1022, the nearest multiple of `2^(e - 52)`, ties to even; `none`
stands for an infinity, reached when the rounded magnitude is `2^1024` or more. -/
def toBinary64 (x : ℚ) : Option ℚ :=
  if |(roundTiesEven (x / 2 ^ (max (Int.log 2 |x|) (-1022) - 52)) : ℚ) *
      2 ^ (max (Int.log 2 |x|) (-1022) - 52)| < 2 ^ 1024 then
    some (roundTiesEven (x / 2 ^ (max (Int.log 2 |x|) (-1022) - 52)) *
      2 ^ (max (Int.log 2 |x|) (-1022) - 52))
  else none

/-- Truncation toward zero, the rounding of a floating-point to integer conversion. -/
def truncate (x : ℚ) : ℤ :=
  if 0 ≤ x then ⌊x⌋ else ⌈x⌉

/-- The conversion `(unsigned int)x` of a `double`: defined when the truncated value is
representable in 32 unsigned bits. -/
def doubleToUnsigned (x : ℚ) : Option Nat :=
  if 0 ≤ truncate x ∧ truncate x < 2 ^ 32 then some (truncate x).toNat else none

/-- The conversion `(int)x` of a `double`: defined when the truncated value is
representable in 32 signed bits. -/
def doubleToInt (x : ℚ) : Option ℤ :=
  if -(2 ^ 31) ≤ truncate x ∧ truncate x < 2 ^ 31 then some (truncate x) else none

/-- The conversion of an `int` to `unsigned int`: reduction modulo `2^32`. -/
def intToUnsigned (z : ℤ) : Nat := (z % 2 ^ 32).toNat

/-- Subtraction of two `unsigned int` values, modulo `2^32`. -/
def wrapSub32 (a b : Nat) : Nat := (a + (2 ^ 32 - b % 2 ^ 32)) % 2 ^ 32

/-! ## Events and objects -/

/-- One observable action of the constructor or of the destructor. -/
inductive Event
  | openMem
  | mmap (length base : Nat)
  | close
  | print (msg : String)
  | read32 (offset : Nat)
  | write32 (offset value : Nat)
  | munmap (length : Nat)
  deriving DecidableEq, Repr

/-- Whether the event is an access to a peripheral register. -/
def Event.isRegisterAccess : Event → Bool
  | .read32 _ => true
  | .write32 _ _ => true
  | _ => false

/-- The register writes of a log, as (offset, value) pairs, in order. -/
def registerWrites : List Event → List (Nat × Nat)
  | [] => []
  | .write32 offset value :: rest => (offset, value) :: registerWrites rest
  | _ :: rest => registerWrites rest

/-- What the constructor obtains from the operating system and the hardware. -/
structure Platform where
  /-- The result of `open("/dev/mem", O_RDWR | O_SYNC)`; negative on failure. -/
  memFd : Int
  /-- The result of `mmap`; `none` stands for `MAP_FAILED`. -/
  peripheralsMap : Option Nat
  /-- The content of the register at `GPIO_BASE` when it is read. -/
  gpfsel : Nat

/-- The data members of a `Transmitter`. -/
structure Transmitter where
  peripherals : Nat
  clockDivisor : Nat
  deriving DecidableEq, Repr

/-- How a call of the constructor ends. -/
inductive Construction
  /-- The constructor threw: `throw std::exception()`. -/
  | raised
  /-- The conversion to `unsigned int` of line 73 has no defined result. -/
  | undefined
  /-- The constructor returned; the object holds these members. -/
  | built (t : Transmitter)
  deriving DecidableEq, Repr

/-! ## `Transmitter::Transmitter` -/

/-- Line 73: `(unsigned int)((500 << 12) / frequency + 0.5)`, the quotient and the sum each
rounded to binary64.  A division by `0.0` or an overflow gives an infinity, which no
integer type represents. -/
def baseDivisor (frequency : ℚ) : Option Nat :=
  if frequency = 0 then none
  else
    match toBinary64 (((500 <<< 12 : Nat) : ℚ) / frequency) with
    | none => none
    | some quotient =>
      match toBinary64 (quotient + 1 / 2) with
      | none => none
      | some sum => doubleToUnsigned sum

/-- The value stored to the GPIO function-select register (lines 61-62). -/
def gpioWord (previous : Nat) : Nat :=
  (previous &&& 0xFFFF8FFF) ||| (0x01 <<< 14)

/-- The value stored to the clock control register (lines 65-68). -/
def clockControlWord : Nat :=
  (0x5A <<< 24) ||| (0x01 <<< 9) ||| (0x01 <<< 4) ||| 0x06

/-- The constructor: its outcome and the log of its actions. -/
def construct (p : Platform) (frequency : ℚ) : Construction × List Event :=
  if p.memFd < 0 then
    (.raised, [.openMem, .print "Error: sudo privileges are required"])
  else
    match p.peripheralsMap with
    | none =>
      (.raised, [.openMem, .mmap 0x002FFFFF BCM2835_BASE, .close,
        .print "Error: cannot obtain access to peripherals (mmap error)"])
    | some peripherals =>
      let log := [.openMem, .mmap 0x002FFFFF BCM2835_BASE, .close,
        .read32 GPIO_BASE, .write32 GPIO_BASE (gpioWord p.gpfsel),
        .write32 CLK0_BASE clockControlWord]
      match baseDivisor frequency with
      | none => (.undefined, log)
      | some divisor => (.built ⟨peripherals, divisor⟩, log)

/-! ## `Transmitter::~Transmitter` -/

/-- The destructor: the log of its actions. -/
def destroy (_t : Transmitter) : List Event :=
  [.write32 CLK0_BASE (0x5A <<< 24), .munmap 0x002FFFFF]

/-! ## `Transmitter::transmit` -/

/-- A store to a 32-bit peripheral register. -/
structure RegWrite where
  offset : Nat
  value : Nat
  deriving DecidableEq, Repr

/-- Where a run of `transmit` stands once the given counter readings are used up. -/
inductive Status
  /-- The outer loop ended and the call returned. -/
  | returned
  /-- The call is still inside the wait loop, about to poll the counter again. -/
  | polling
  /-- An out-of-range element access or conversion to `int` was reached. -/
  | undefined
  deriving DecidableEq, Repr

/-- The outcome of a run of `transmit`: the object afterwards, the register writes made,
each with the sample index it encodes, and the status. -/
structure Run where
  self : Transmitter
  writes : List (Nat × RegWrite)
  status : Status

/-- The unsigned 64-bit difference `current - start`. -/
def elapsedUs (start current : Nat) : Nat :=
  (current + (2 ^ 64 - start % 2 ^ 64)) % 2 ^ 64

/-- Line 93: `(unsigned int)((current - start) * sampleRate / 1000000)`, the product taken
in 64 unsigned bits and the quotient cut to 32 bits. -/
def pollIndex (start current sampleRate : Nat) : Nat :=
  (elapsedUs start current * sampleRate % 2 ^ 64 / 1000000) % 2 ^ 32

/-- Lines 86-87: the word `(0x5A << 24) | (clockDivisor - (int)(round(samples[offset] * 16.0)))`. -/
def modulate (clockDivisor : Nat) (samples : List ℚ) (offset : Nat) : Option Nat :=
  match samples[offset]? with
  | none => none
  | some sample =>
    match doubleToInt (roundHalfAway (sample * 16)) with
    | none => none
    | some ticks => some ((0x5A <<< 24) ||| wrapSub32 clockDivisor (intToUnsigned ticks))

/-- The wait loop of lines 90-94, `while (temp >= offset) { usleep(1); current = ...;
offset = ...; }`, run on the counter readings still to come.  It yields the value of
`offset` on leaving the loop and the readings not consumed, or `none` when the readings
end while the loop is still running. -/
def waitLoop (sampleRate start temp : Nat) : Nat → List Nat → Option (Nat × List Nat)
  | offset, [] => if temp ≥ offset then none else some (offset, [])
  | offset, current :: rest =>
    if temp ≥ offset then waitLoop sampleRate start temp (pollIndex start current sampleRate) rest
    else some (offset, current :: rest)

/-- The test of the outer loop (line 83) and the register write of lines 86-87 for the
index `offset`; `later` is what the rest of the run produces after the write. -/
def outerStep (clockDivisor : Nat) (samples : List ℚ) (offset : Nat)
    (later : List (Nat × RegWrite) × Status) : List (Nat × RegWrite) × Status :=
  if offset < samples.length % 2 ^ 32 then
    match modulate clockDivisor samples offset with
    | none => ([], .undefined)
    | some word => ((offset, ⟨CLK0D_BASE, word⟩) :: later.1, later.2)
  else ([], .returned)

/-- The run from inside the wait loop, the sample of index `temp` having been written:
each counter reading is one pass through the body of the wait loop, followed by the test
of the wait loop and, when that loop is left, by the outer test and the next write. -/
def pollLoop (clockDivisor : Nat) (samples : List ℚ) (sampleRate start : Nat) :
    Nat → List Nat → List (Nat × RegWrite) × Status
  | _, [] => ([], .polling)
  | temp, current :: rest =>
    if temp ≥ pollIndex start current sampleRate then
      pollLoop clockDivisor samples sampleRate start temp rest
    else
      outerStep clockDivisor samples (pollIndex start current sampleRate)
        (pollLoop clockDivisor samples sampleRate start (pollIndex start current sampleRate) rest)

/-- The method `transmit`: `start` is the first reading of the counter (line 81), `polls`
the readings of line 92 in order. -/
def transmit (t : Transmitter) (samples : List ℚ) (sampleRate start : Nat)
    (polls : List Nat) : Run :=
  let r := outerStep t.clockDivisor samples 0
    (pollLoop t.clockDivisor samples sampleRate start 0 polls)
  ⟨t, r.1, r.2⟩

/-- The sample indices of the register writes of a run, in order. -/
def Run.indices (r : Run) : List Nat := r.writes.map Prod.fst


/-! ## Arithmetic of the conversions -/

theorem truncate_intCast (z : ℤ) : truncate (z : ℚ) = z := by
  unfold truncate
  split <;> simp

theorem doubleToInt_intCast {z : ℤ} (hlo : -(2 ^ 31) ≤ z) (hhi : z < 2 ^ 31) :
    doubleToInt (z : ℚ) = some z := by
  unfold doubleToInt
  rw [truncate_intCast, if_pos ⟨hlo, hhi⟩]

theorem doubleToInt_eq_some {z w : ℤ} (h : doubleToInt (z : ℚ) = some w) :
    w = z ∧ -(2 ^ 31) ≤ z ∧ z < 2 ^ 31 := by
  unfold doubleToInt at h
  rw [truncate_intCast] at h
  split at h
  · rename_i hr
    exact ⟨(Option.some.inj h).symm, hr.1, hr.2⟩
  · exact absurd h (by simp)

theorem wrapSub32_intToUnsigned {c : Nat} {o d : ℤ} (hd : d = (c : ℤ) - o) (h0 : 0 ≤ d)
    (h1 : d < 2 ^ 32) : (wrapSub32 c (intToUnsigned o) : ℤ) = d := by
  unfold wrapSub32 intToUnsigned
  omega

theorem wrapSub32_wrap {c : Nat} {o : ℤ} (h0 : (c : ℤ) < o) (h1 : o ≤ (c : ℤ) + 2 ^ 32) :
    (wrapSub32 c (intToUnsigned o) : ℤ) = 2 ^ 32 - (o - c) := by
  unfold wrapSub32 intToUnsigned
  omega

theorem password_or {d : Nat} (hd : d < 2 ^ 24) : (0x5A <<< 24) ||| d = 0x5A000000 + d := by
  have h := Nat.mul_add_lt_is_or hd 0x5A
  have e : (0x5A <<< 24 : Nat) = 2 ^ 24 * 0x5A := by decide
  rw [e, ← h]

theorem or_shiftRight (a b n : Nat) : (a ||| b) >>> n = a >>> n ||| b >>> n := by
  apply Nat.eq_of_testBit_eq
  intro i
  simp [Nat.testBit_shiftRight, Nat.testBit_or]

theorem password_or_top {v : Nat} (hlo : 2 ^ 32 - 2 ^ 24 ≤ v) (hhi : v < 2 ^ 32) :
    ((0x5A <<< 24) ||| v) >>> 24 = 0xFF := by
  have hv : v >>> 24 = 255 := by
    rw [Nat.shiftRight_eq_div_pow]
    omega
  rw [or_shiftRight, hv]
  decide

/-! ## binary64 rounding -/

theorem le_roundTiesEven {y : ℚ} {m : ℤ} (h : (m : ℚ) ≤ y) : m ≤ roundTiesEven y := by
  have hm : m ≤ ⌊y⌋ := Int.le_floor.mpr h
  unfold roundTiesEven
  split
  · exact hm
  · split
    · omega
    · split <;> omega

theorem roundTiesEven_le {y : ℚ} {m : ℤ} (h : y ≤ (m : ℚ)) : roundTiesEven y ≤ m := by
  have hfl : (⌊y⌋ : ℚ) ≤ y := Int.floor_le y
  have hm : ⌊y⌋ ≤ m := by exact_mod_cast le_trans hfl h
  unfold roundTiesEven
  split
  · exact hm
  · rename_i hfrac
    have hlt : ⌊y⌋ < m := by
      have : (⌊y⌋ : ℚ) < m := by linarith
      exact_mod_cast this
    split
    · omega
    · split <;> omega

theorem binadeExponent_le {x : ℚ} (h0 : 0 ≤ x) (h50 : x < 2 ^ 50) :
    max (Int.log 2 |x|) (-1022) ≤ 49 := by
  rw [abs_of_nonneg h0]
  rcases h0.eq_or_lt with h | h
  · rw [← h, Int.log_zero_right]
    decide
  · have hlog : Int.log 2 x < 50 := by
      rw [← Int.lt_zpow_iff_log_lt (by decide) h]
      exact_mod_cast h50
    rw [max_le_iff]
    exact ⟨by omega, by decide⟩

theorem quantum_eq {e : ℤ} (he : e ≤ 49) :
    (2 : ℚ) ^ (e - 52) = 1 / (4 * 2 ^ (49 - e).toNat * 2) := by
  have hz : e - 52 = -(((49 - e).toNat + 3 : ℕ) : ℤ) := by
    push_cast
    rw [Int.toNat_of_nonneg (by omega)]
    ring
  rw [hz, zpow_neg, zpow_natCast, pow_add]
  norm_num
  ring

theorem toBinary64_bracket {x : ℚ} {a b : ℕ} (hb : b < 2 ^ 52) (hlo : (a : ℚ) / 4 ≤ x)
    (hhi : x ≤ (b : ℚ) / 4) :
    ∃ y, toBinary64 x = some y ∧ (a : ℚ) / 4 ≤ y ∧ y ≤ (b : ℚ) / 4 := by
  have h0 : 0 ≤ x := le_trans (by positivity) hlo
  have hbq : (b : ℚ) < 2 ^ 52 := by exact_mod_cast hb
  have h50 : x < 2 ^ 50 := by
    have : (b : ℚ) / 4 < 2 ^ 50 := by
      rw [div_lt_iff₀ (by norm_num)]
      calc (b : ℚ) < 2 ^ 52 := hbq
        _ = 2 ^ 50 * 4 := by norm_num
    exact lt_of_le_of_lt hhi this
  have he := binadeExponent_le h0 h50
  have hu := quantum_eq he
  unfold toBinary64
  generalize max (Int.log 2 |x|) (-1022) = e at he hu ⊢
  generalize hj : (49 - e).toNat = j at hu
  have hpos : (0 : ℚ) < 4 * 2 ^ j * 2 := by positivity
  have hdiv : x / 2 ^ (e - 52) = x * (4 * 2 ^ j * 2) := by
    rw [hu]
    field_simp
  have hlo2 : (((a * (2 ^ j * 2) : ℕ) : ℤ) : ℚ) ≤ x / 2 ^ (e - 52) := by
    rw [hdiv]
    push_cast
    have := mul_le_mul_of_nonneg_right hlo hpos.le
    calc (a : ℚ) * (2 ^ j * 2) = (a : ℚ) / 4 * (4 * 2 ^ j * 2) := by ring
      _ ≤ x * (4 * 2 ^ j * 2) := this
  have hhi2 : x / 2 ^ (e - 52) ≤ (((b * (2 ^ j * 2) : ℕ) : ℤ) : ℚ) := by
    rw [hdiv]
    push_cast
    have := mul_le_mul_of_nonneg_right hhi hpos.le
    calc x * (4 * 2 ^ j * 2) ≤ (b : ℚ) / 4 * (4 * 2 ^ j * 2) := this
      _ = (b : ℚ) * (2 ^ j * 2) := by ring
  have hr1 := le_roundTiesEven hlo2
  have hr2 := roundTiesEven_le hhi2
  generalize roundTiesEven (x / 2 ^ (e - 52)) = r at hr1 hr2 ⊢
  have hr1q : ((a * (2 ^ j * 2) : ℕ) : ℚ) ≤ (r : ℚ) := by exact_mod_cast hr1
  have hr2q : (r : ℚ) ≤ ((b * (2 ^ j * 2) : ℕ) : ℚ) := by exact_mod_cast hr2
  push_cast at hr1q hr2q
  have hy1 : (a : ℚ) / 4 ≤ (r : ℚ) * 2 ^ (e - 52) := by
    rw [hu, mul_one_div, le_div_iff₀ hpos]
    calc (a : ℚ) / 4 * (4 * 2 ^ j * 2) = (a : ℚ) * (2 ^ j * 2) := by ring
      _ ≤ r := hr1q
  have hy2 : (r : ℚ) * 2 ^ (e - 52) ≤ (b : ℚ) / 4 := by
    rw [hu, mul_one_div, div_le_iff₀ hpos]
    calc (r : ℚ) ≤ (b : ℚ) * (2 ^ j * 2) := hr2q
      _ = (b : ℚ) / 4 * (4 * 2 ^ j * 2) := by ring
  have hy0 : (0 : ℚ) ≤ (r : ℚ) * 2 ^ (e - 52) := le_trans (by positivity) hy1
  have hfin : |(r : ℚ) * 2 ^ (e - 52)| < 2 ^ 1024 := by
    rw [abs_of_nonneg hy0]
    calc (r : ℚ) * 2 ^ (e - 52) ≤ (b : ℚ) / 4 := hy2
      _ ≤ b := by linarith [show (0 : ℚ) ≤ b from by positivity]
      _ < 2 ^ 52 := hbq
      _ ≤ 2 ^ 1024 := by norm_num
  rw [if_pos hfin]
  exact ⟨_, rfl, hy1, hy2⟩

theorem shift_500_12 : (((500 <<< 12 : Nat) : ℚ)) = 2048000 := by
  have h : (500 <<< 12 : Nat) = 2048000 := by decide
  rw [h]
  norm_num

theorem doubleToUnsigned_bracket {s : ℚ} {a b : ℕ} (hb : b < 2 ^ 34) (hlo : (a : ℚ) / 4 ≤ s)
    (hhi : s ≤ (b : ℚ) / 4) :
    ∃ d, doubleToUnsigned s = some d ∧ a / 4 ≤ d ∧ d ≤ b / 4 := by
  have h0 : 0 ≤ s := le_trans (by positivity) hlo
  have hfl0 : (0 : ℤ) ≤ ⌊s⌋ := Int.floor_nonneg.mpr h0
  have hbq : (b : ℚ) < 2 ^ 34 := by exact_mod_cast hb
  have hfl1 : (⌊s⌋ : ℚ) ≤ s := Int.floor_le s
  have hfl2 : s < (⌊s⌋ : ℚ) + 1 := Int.lt_floor_add_one s
  have hnat : ((⌊s⌋.toNat : ℕ) : ℚ) = (⌊s⌋ : ℚ) := by
    have : ((⌊s⌋.toNat : ℕ) : ℤ) = ⌊s⌋ := Int.toNat_of_nonneg hfl0
    exact_mod_cast this
  have hlt : ⌊s⌋ < 2 ^ 32 := by
    have : (⌊s⌋ : ℚ) < 2 ^ 32 := by
      have h4 : s < 2 ^ 32 := by
        calc s ≤ (b : ℚ) / 4 := hhi
          _ < 2 ^ 34 / 4 := by linarith
          _ = 2 ^ 32 := by norm_num
      linarith
    exact_mod_cast this
  refine ⟨⌊s⌋.toNat, ?_, ?_, ?_⟩
  · unfold doubleToUnsigned truncate
    rw [if_pos h0, if_pos ⟨hfl0, hlt⟩]
  · have h1 : a / 4 < ⌊s⌋.toNat + 1 := by
      rw [Nat.div_lt_iff_lt_mul (by decide)]
      have : (a : ℚ) < ((⌊s⌋.toNat + 1 : ℕ) : ℚ) * 4 := by
        push_cast
        rw [hnat]
        linarith
      exact_mod_cast this
    omega
  · rw [Nat.le_div_iff_mul_le (by decide)]
    have : ((⌊s⌋.toNat : ℕ) : ℚ) * 4 ≤ (b : ℚ) := by
      rw [hnat]
      linarith
    exact_mod_cast this

theorem baseDivisor_bracket {f : ℚ} {a b : ℕ} (hf : 0 < f) (hb : b + 2 < 2 ^ 34)
    (hlo : (a : ℚ) / 4 ≤ 2048000 / f) (hhi : 2048000 / f ≤ (b : ℚ) / 4) :
    ∃ d, baseDivisor f = some d ∧ (a + 2) / 4 ≤ d ∧ d ≤ (b + 2) / 4 := by
  have hb52 : b + 2 < 2 ^ 52 := lt_trans hb (by decide)
  obtain ⟨q, hq, hq1, hq2⟩ := toBinary64_bracket (by omega : b < 2 ^ 52) hlo hhi
  have hs1 : (((a + 2 : ℕ) : ℚ)) / 4 ≤ q + 1 / 2 := by
    push_cast
    linarith
  have hs2 : q + 1 / 2 ≤ (((b + 2 : ℕ) : ℚ)) / 4 := by
    push_cast
    linarith
  obtain ⟨s, hs, hs3, hs4⟩ := toBinary64_bracket hb52 hs1 hs2
  obtain ⟨d, hd, hd1, hd2⟩ := doubleToUnsigned_bracket hb hs3 hs4
  refine ⟨d, ?_, hd1, hd2⟩
  unfold baseDivisor
  rw [if_neg hf.ne', shift_500_12, hq]
  simp only
  rw [hs]
  exact hd

theorem le_of_toBinary64 {x y : ℚ} {a : ℕ} (ha : a < 2 ^ 51) (hlo : (a : ℚ) / 4 ≤ x)
    (h : toBinary64 x = some y) : (a : ℚ) / 4 ≤ y := by
  have h0 : 0 ≤ x := le_trans (by positivity) hlo
  by_cases hx : x < 2 ^ 49
  · have hceil : x * 4 ≤ (⌈x * 4⌉₊ : ℚ) := Nat.le_ceil _
    have hb : ⌈x * 4⌉₊ < 2 ^ 52 := by
      have h1 : ⌈x * 4⌉₊ ≤ 2 ^ 51 := by
        rw [Nat.ceil_le]
        push_cast
        linarith
      exact lt_of_le_of_lt h1 (by decide)
    obtain ⟨y2, hy2, hy3, _⟩ := toBinary64_bracket hb hlo (by linarith : x ≤ (⌈x * 4⌉₊ : ℚ) / 4)
    rw [h] at hy2
    rw [Option.some.inj hy2]
    exact hy3
  · have hx49 : (2 : ℚ) ^ 49 ≤ x := not_lt.mp hx
    have hpos : 0 < x := lt_of_lt_of_le (by positivity) hx49
    have hlog : 49 ≤ Int.log 2 x := by
      rw [← Int.zpow_le_iff_le_log (by decide) hpos]
      exact_mod_cast hx49
    have hpow : (2 : ℚ) ^ Int.log 2 x ≤ x := by
      have := Int.zpow_log_le_self (b := 2) (r := x) (by decide) hpos
      exact_mod_cast this
    unfold toBinary64 at h
    rw [abs_of_pos hpos, max_eq_left (by omega : (-1022 : ℤ) ≤ Int.log 2 x)] at h
    generalize Int.log 2 x = e at hlog hpow h
    split at h
    · have hy := Option.some.inj h
      have hu : (0 : ℚ) < 2 ^ (e - 52) := by positivity
      have hsplit : (2 : ℚ) ^ e = 2 ^ (52 : ℤ) * 2 ^ (e - 52) := by
        rw [← zpow_add₀ (by norm_num : (2 : ℚ) ≠ 0)]
        congr 1
        ring
      have hq : (((2 ^ 52 : ℤ)) : ℚ) ≤ x / 2 ^ (e - 52) := by
        rw [le_div_iff₀ hu]
        push_cast
        calc (2 : ℚ) ^ 52 * 2 ^ (e - 52) = 2 ^ e := by rw [hsplit]; norm_num
          _ ≤ x := hpow
      have hr := le_roundTiesEven hq
      generalize roundTiesEven (x / 2 ^ (e - 52)) = r at hr hy
      have hrq : ((2 : ℚ) ^ 52) ≤ (r : ℚ) := by exact_mod_cast hr
      have h49 : (2 : ℚ) ^ (49 : ℤ) ≤ 2 ^ e := zpow_le_zpow_right₀ (by norm_num) hlog
      have haq : (a : ℚ) < 2 ^ 51 := by exact_mod_cast ha
      rw [← hy]
      calc (a : ℚ) / 4 ≤ 2 ^ (49 : ℤ) := by
            rw [div_le_iff₀ (by norm_num)]
            norm_num
            linarith
        _ ≤ 2 ^ e := h49
        _ = 2 ^ (52 : ℤ) * 2 ^ (e - 52) := hsplit
        _ ≤ (r : ℚ) * 2 ^ (e - 52) := by
            apply mul_le_mul_of_nonneg_right _ hu.le
            norm_num
            exact hrq
    · exact absurd h (by simp)

theorem baseDivisor_eq_some {f : ℚ} {d : ℕ} (h : baseDivisor f = some d) :
    ∃ q s, toBinary64 (2048000 / f) = some q ∧ toBinary64 (q + 1 / 2) = some s ∧
      doubleToUnsigned s = some d := by
  unfold baseDivisor at h
  split at h
  · exact absurd h (by simp)
  · rw [shift_500_12] at h
    split at h
    · exact absurd h (by simp)
    · rename_i q hq
      split at h
      · exact absurd h (by simp)
      · rename_i s hs
        exact ⟨q, s, hq, hs, h⟩

theorem le_baseDivisor {f : ℚ} {d a : ℕ} (ha : a + 2 < 2 ^ 51) (h : baseDivisor f = some d)
    (hlo : (a : ℚ) / 4 ≤ 2048000 / f) : (a + 2) / 4 ≤ d := by
  obtain ⟨q, s, hq, hs, hd⟩ := baseDivisor_eq_some h
  have hq1 := le_of_toBinary64 (by omega : a < 2 ^ 51) hlo hq
  have hs0 : (((a + 2 : ℕ) : ℚ)) / 4 ≤ q + 1 / 2 := by
    push_cast
    linarith
  have hs1 := le_of_toBinary64 ha hs0 hs
  have h0 : 0 ≤ s := le_trans (by positivity) hs1
  unfold doubleToUnsigned truncate at hd
  rw [if_pos h0] at hd
  split at hd
  · rename_i hr
    have hd2 := Option.some.inj hd
    have hfl2 : s < (⌊s⌋ : ℚ) + 1 := Int.lt_floor_add_one s
    have hnat : ((d : ℕ) : ℚ) = (⌊s⌋ : ℚ) := by
      have : ((⌊s⌋.toNat : ℕ) : ℤ) = ⌊s⌋ := Int.toNat_of_nonneg hr.1
      rw [← hd2]
      exact_mod_cast this
    have h1 : (a + 2) / 4 < d + 1 := by
      rw [Nat.div_lt_iff_lt_mul (by decide)]
      have : (((a + 2 : ℕ)) : ℚ) < ((d + 1 : ℕ) : ℚ) * 4 := by
        push_cast
        push_cast at hs1
        rw [hnat]
        linarith
      exact_mod_cast this
    omega
  · exact absurd hd (by simp)

theorem roundHalfAway_of_nonneg {x : ℚ} (hx : 0 ≤ x) : roundHalfAway x = ⌊x + 1 / 2⌋ := by
  simp [roundHalfAway, hx]

theorem construct_of_mapped {p : Platform} {base : Nat} (f : ℚ) (hfd : 0 ≤ p.memFd)
    (hmap : p.peripheralsMap = some base) :
    construct p f =
      (match baseDivisor f with
        | none => Construction.undefined
        | some divisor => Construction.built ⟨base, divisor⟩,
       [.openMem, .mmap 0x002FFFFF BCM2835_BASE, .close, .read32 GPIO_BASE,
        .write32 GPIO_BASE (gpioWord p.gpfsel), .write32 CLK0_BASE clockControlWord]) := by
  unfold construct
  rw [if_neg (not_lt.mpr hfd), hmap]
  cases baseDivisor f <;> rfl

theorem construct_built {p : Platform} {f : ℚ} {t : Transmitter}
    (h : (construct p f).1 = .built t) :
    0 ≤ p.memFd ∧ p.peripheralsMap = some t.peripherals ∧ baseDivisor f = some t.clockDivisor := by
  unfold construct at h
  split at h
  · exact absurd h (by simp)
  · rename_i hfd
    split at h
    · exact absurd h (by simp)
    · rename_i base hmap
      split at h
      · exact absurd h (by simp)
      · rename_i divisor hdiv
        simp only [Construction.built.injEq] at h
        subst h
        exact ⟨not_lt.mp hfd, hmap, hdiv⟩

theorem gpioWord_testBit {previous : Nat} (h32 : previous < 2 ^ 32) (k : Nat) :
    (gpioWord previous).testBit k =
      if k = 14 then true else if k = 13 ∨ k = 12 then false else previous.testBit k := by
  unfold gpioWord
  rw [Nat.testBit_or, Nat.testBit_and]
  by_cases hk : k < 32
  · interval_cases k <;> generalize Nat.testBit previous _ = b <;> cases b <;> decide
  · have hk32 : 32 ≤ k := not_lt.mp hk
    have hpow : 2 ^ 32 ≤ 2 ^ k := Nat.pow_le_pow_right (by decide) hk32
    have h1 : previous.testBit k = false := Nat.testBit_lt_two_pow (lt_of_lt_of_le h32 hpow)
    have h2 : (0x01 <<< 14 : Nat).testBit k = false :=
      Nat.testBit_lt_two_pow (lt_of_lt_of_le (by decide) hpow)
    rw [h1, h2]
    have h14 : k ≠ 14 := by omega
    have h13 : ¬(k = 13 ∨ k = 12) := by omega
    simp [h14, h13]

theorem baseDivisor_of_exact {f : ℚ} {n : ℕ} (hf : 0 < f) (hn : n < 2 ^ 32 - 1)
    (hq : (2048000 : ℚ) / f = (n : ℚ)) : baseDivisor f = some n := by
  have h1 : (((4 * n : ℕ) : ℚ)) / 4 ≤ 2048000 / f := by
    rw [hq]
    push_cast
    linarith
  have h2 : (2048000 : ℚ) / f ≤ (((4 * n : ℕ) : ℚ)) / 4 := by
    rw [hq]
    push_cast
    linarith
  obtain ⟨d, hd, hd1, hd2⟩ := baseDivisor_bracket hf (by omega) h1 h2
  have hdn : d = n := by omega
  rw [hd, hdn]

theorem baseDivisor_of_small {f : ℚ} (hf : 0 < f) (hq : (2048000 : ℚ) / f ≤ 1 / 4) :
    baseDivisor f = some 0 := by
  have h1 : (((0 : ℕ) : ℚ)) / 4 ≤ 2048000 / f := by
    have : (0 : ℚ) ≤ 2048000 / f := by positivity
    simpa using this
  have h2 : (2048000 : ℚ) / f ≤ (((1 : ℕ) : ℚ)) / 4 := by simpa using hq
  obtain ⟨d, hd, hd1, hd2⟩ := baseDivisor_bracket hf (by decide) h1 h2
  have hdn : d = 0 := by omega
  rw [hd, hdn]

/-! ## The loops of `transmit` -/

theorem outerStep_mem {cd : Nat} {samples : List ℚ} {offset : Nat}
    {later : List (Nat × RegWrite) × Status} {e : Nat × RegWrite}
    (h : e ∈ (outerStep cd samples offset later).1) :
    (e.1 = offset ∧ offset < samples.length % 2 ^ 32 ∧ e.2.offset = CLK0D_BASE ∧
      modulate cd samples offset = some e.2.value) ∨ e ∈ later.1 := by
  unfold outerStep at h
  split at h
  · rename_i hlt
    split at h
    · exact absurd h (List.not_mem_nil _)
    · rename_i word hword
      rcases List.mem_cons.mp h with rfl | h'
      · exact Or.inl ⟨rfl, hlt, rfl, hword⟩
      · exact Or.inr h'
  · exact absurd h (List.not_mem_nil _)

theorem pollLoop_mem (cd : Nat) (samples : List ℚ) (sampleRate start : Nat) :
    ∀ (polls : List Nat) (temp : Nat) (e : Nat × RegWrite),
      e ∈ (pollLoop cd samples sampleRate start temp polls).1 →
      temp < e.1 ∧ e.1 < samples.length % 2 ^ 32 ∧ e.2.offset = CLK0D_BASE ∧
        modulate cd samples e.1 = some e.2.value := by
  intro polls
  induction polls with
  | nil =>
    intro temp e h
    exact absurd h (List.not_mem_nil _)
  | cons current rest ih =>
    intro temp e h
    rw [pollLoop] at h
    split at h
    · exact ih temp e h
    · rename_i hlt
      rcases outerStep_mem h with ⟨h1, h2, h3, h4⟩ | h'
      · rw [h1]
        exact ⟨not_le.mp hlt, h2, h3, h4⟩
      · have := ih _ e h'
        exact ⟨lt_trans (not_le.mp hlt) this.1, this.2⟩

theorem outerStep_indices_pairwise {cd : Nat} {samples : List ℚ} {offset : Nat}
    {later : List (Nat × RegWrite) × Status}
    (hgt : ∀ e ∈ later.1, offset < e.1)
    (hpw : (later.1.map Prod.fst).Pairwise (· < ·)) :
    (((outerStep cd samples offset later).1).map Prod.fst).Pairwise (· < ·) := by
  unfold outerStep
  split
  · split
    · exact List.Pairwise.nil
    · rw [List.map_cons, List.pairwise_cons]
      refine ⟨?_, hpw⟩
      intro i hi
      obtain ⟨e, he, rfl⟩ := List.mem_map.mp hi
      exact hgt e he
  · exact List.Pairwise.nil

theorem pollLoop_indices_pairwise (cd : Nat) (samples : List ℚ) (sampleRate start : Nat) :
    ∀ (polls : List Nat) (temp : Nat),
      (((pollLoop cd samples sampleRate start temp polls).1).map Prod.fst).Pairwise (· < ·) := by
  intro polls
  induction polls with
  | nil =>
    intro temp
    exact List.Pairwise.nil
  | cons current rest ih =>
    intro temp
    rw [pollLoop]
    split
    · exact ih temp
    · exact outerStep_indices_pairwise
        (fun e he => (pollLoop_mem cd samples sampleRate start rest _ e he).1) (ih _)

theorem waitLoop_of_ge {sampleRate start temp offset : Nat} (h : temp ≥ offset)
    (polls : List Nat) :
    waitLoop sampleRate start temp offset polls = waitLoop sampleRate start temp temp polls := by
  cases polls with
  | nil => rw [waitLoop, waitLoop, if_pos h, if_pos (le_refl temp)]
  | cons current rest => rw [waitLoop, waitLoop, if_pos h, if_pos (le_refl temp)]

theorem waitLoop_of_lt {sampleRate start temp offset : Nat} (h : ¬temp ≥ offset)
    (polls : List Nat) :
    waitLoop sampleRate start temp offset polls = some (offset, polls) := by
  cases polls with
  | nil => rw [waitLoop, if_neg h]
  | cons current rest => rw [waitLoop, if_neg h]

theorem waitLoop_cons (sampleRate start temp current : Nat) (rest : List Nat) :
    waitLoop sampleRate start temp temp (current :: rest) =
      if temp ≥ pollIndex start current sampleRate then
        waitLoop sampleRate start temp temp rest
      else some (pollIndex start current sampleRate, rest) := by
  rw [waitLoop, if_pos (le_refl temp)]
  split
  · rename_i h
    exact waitLoop_of_ge h rest
  · rename_i h
    exact waitLoop_of_lt h rest

theorem waitLoop_length (sampleRate start temp : Nat) :
    ∀ (polls : List Nat) (offset : Nat) (r : Nat × List Nat),
      waitLoop sampleRate start temp offset polls = some r → r.2.length ≤ polls.length := by
  intro polls
  induction polls with
  | nil =>
    intro offset r h
    rw [waitLoop] at h
    split at h
    · exact absurd h (by simp)
    · rw [← Option.some.inj h]
  | cons current rest ih =>
    intro offset r h
    rw [waitLoop] at h
    split at h
    · exact le_trans (ih _ r h) (Nat.le_succ _)
    · rw [← Option.some.inj h]

/-- The run from inside the wait loop is the wait loop run to its end, followed by the
outer test, the write and the next wait: the nesting of the two loops of the source. -/
theorem pollLoop_eq_waitLoop (cd : Nat) (samples : List ℚ) (sampleRate start : Nat) :
    ∀ (polls : List Nat) (temp : Nat),
      pollLoop cd samples sampleRate start temp polls =
        match waitLoop sampleRate start temp temp polls with
        | none => ([], .polling)
        | some (offset, rest) =>
          outerStep cd samples offset (pollLoop cd samples sampleRate start offset rest) := by
  intro polls
  induction polls with
  | nil =>
    intro temp
    rw [pollLoop, waitLoop, if_pos (le_refl temp)]
  | cons current rest ih =>
    intro temp
    rw [pollLoop, waitLoop_cons]
    split
    · exact ih temp
    · rfl

theorem outerStep_of_word {cd : Nat} {samples : List ℚ} {offset word : Nat}
    (later : List (Nat × RegWrite) × Status) (hlt : offset < samples.length % 2 ^ 32)
    (hword : modulate cd samples offset = some word) :
    outerStep cd samples offset later = ((offset, ⟨CLK0D_BASE, word⟩) :: later.1, later.2) := by
  unfold outerStep
  rw [if_pos hlt, hword]

theorem outerStep_of_ge {cd : Nat} {samples : List ℚ} {offset : Nat}
    (later : List (Nat × RegWrite) × Status) (hge : ¬offset < samples.length % 2 ^ 32) :
    outerStep cd samples offset later = ([], .returned) := by
  unfold outerStep
  rw [if_neg hge]

theorem outerStep_cases (cd : Nat) (samples : List ℚ) (offset : Nat)
    (later : List (Nat × RegWrite) × Status) :
    (outerStep cd samples offset later).1 = [] ∨
      ∃ word, outerStep cd samples offset later =
        ((offset, ⟨CLK0D_BASE, word⟩) :: later.1, later.2) := by
  unfold outerStep
  split
  · split
    · exact Or.inl rfl
    · rename_i word _
      exact Or.inr ⟨word, rfl⟩
  · exact Or.inl rfl

theorem outerStep_returned {cd : Nat} {samples : List ℚ} {offset : Nat}
    {later : List (Nat × RegWrite) × Status}
    (h : (outerStep cd samples offset later).2 = .returned) :
    (¬offset < samples.length % 2 ^ 32 ∧ (outerStep cd samples offset later).1 = []) ∨
      (offset < samples.length % 2 ^ 32 ∧ later.2 = .returned ∧
        ((outerStep cd samples offset later).1).map Prod.fst = offset :: later.1.map Prod.fst) := by
  unfold outerStep at h ⊢
  split
  · rename_i hlt
    rw [if_pos hlt] at h
    split
    · rename_i hnone
      rw [hnone] at h
      exact absurd h (by simp)
    · rename_i word hword
      rw [hword] at h
      exact Or.inr ⟨hlt, h, rfl⟩
  · rename_i hge
    exact Or.inl ⟨hge, rfl⟩

theorem pollLoop_indices_range (cd : Nat) (samples : List ℚ) (sampleRate start : Nat) :
    ∀ (polls : List Nat) (temp prev : Nat), prev ≤ temp → temp < samples.length % 2 ^ 32 →
      List.Chain (fun a b => b ≤ a + 1) prev
        (polls.map (fun current => pollIndex start current sampleRate)) →
      (pollLoop cd samples sampleRate start temp polls).2 = .returned →
      ((pollLoop cd samples sampleRate start temp polls).1).map Prod.fst =
        List.range' (temp + 1) (samples.length % 2 ^ 32 - (temp + 1)) := by
  intro polls
  induction polls with
  | nil =>
    intro temp prev _ _ _ hret
    rw [pollLoop] at hret
    exact absurd hret (by simp)
  | cons current rest ih =>
    intro temp prev hprev htemp hchain hret
    rw [List.map_cons, List.chain_cons] at hchain
    obtain ⟨hstep, hchain⟩ := hchain
    rw [pollLoop] at hret ⊢
    split
    · rename_i hge
      rw [if_pos hge] at hret
      exact ih temp _ hge htemp hchain hret
    · rename_i hlt
      rw [if_neg hlt] at hret
      have hoff : pollIndex start current sampleRate = temp + 1 := by omega
      rcases outerStep_returned hret with ⟨hge, hnil⟩ | ⟨hin, hlater, hcons⟩
      · rw [hnil]
        have h0 : samples.length % 2 ^ 32 - (temp + 1) = 0 := by omega
        rw [h0]
        rfl
      · rw [hcons, ih _ _ (le_refl _) hin hchain hlater, hoff]
        have hn : samples.length % 2 ^ 32 - (temp + 1) =
            (samples.length % 2 ^ 32 - (temp + 1 + 1)) + 1 := by omega
        rw [hn, List.range'_succ]

theorem modulate_eq {cd : Nat} {samples : List ℚ} {offset : Nat} {sample : ℚ} {ticks : ℤ}
    (hs : samples[offset]? = some sample) (hr : roundHalfAway (sample * 16) = ticks)
    (hlo : -(2 ^ 31) ≤ ticks) (hhi : ticks < 2 ^ 31) :
    modulate cd samples offset =
      some ((0x5A <<< 24) ||| wrapSub32 cd (intToUnsigned ticks)) := by
  unfold modulate
  rw [hs]
  simp only
  rw [hr, doubleToInt_intCast hlo hhi]

theorem modulate_eq_some {cd : Nat} {samples : List ℚ} {offset word : Nat}
    (h : modulate cd samples offset = some word) :
    ∃ sample, samples[offset]? = some sample ∧
      -(2 ^ 31) ≤ roundHalfAway (sample * 16) ∧ roundHalfAway (sample * 16) < 2 ^ 31 ∧
      word = (0x5A <<< 24) ||| wrapSub32 cd (intToUnsigned (roundHalfAway (sample * 16))) := by
  unfold modulate at h
  split at h
  · exact absurd h (by simp)
  · rename_i sample hs
    split at h
    · exact absurd h (by simp)
    · rename_i ticks hticks
      obtain ⟨h1, h2, h3⟩ := doubleToInt_eq_some hticks
      refine ⟨sample, hs, h2, h3, ?_⟩
      rw [← Option.some.inj h, h1]

theorem transmit_writes_mem {t : Transmitter} {samples : List ℚ} {sampleRate start : Nat}
    {polls : List Nat} {e : Nat × RegWrite}
    (h : e ∈ (transmit t samples sampleRate start polls).writes) :
    e.1 < samples.length % 2 ^ 32 ∧ e.2.offset = CLK0D_BASE ∧
      modulate t.clockDivisor samples e.1 = some e.2.value := by
  unfold transmit at h
  rcases outerStep_mem h with ⟨h1, h2, h3, h4⟩ | h'
  · rw [h1]
    exact ⟨h2, h3, h4⟩
  · exact (pollLoop_mem _ _ _ _ _ _ _ h').2

theorem roundHalfAway_intCast_mul (z : ℤ) : roundHalfAway ((z : ℚ) * 16) = z * 16 := by
  have e : ((z : ℚ) * 16) = ((z * 16 : ℤ) : ℚ) := by push_cast; ring
  rw [e]
  unfold roundHalfAway
  split
  · rw [Int.floor_eq_iff]
    constructor <;> push_cast <;> linarith
  · rw [neg_eq_iff_eq_neg, Int.floor_eq_iff]
    constructor <;> push_cast <;> linarith

theorem pollIndex_eq_floor {start current sampleRate : Nat}
    (h64 : elapsedUs start current * sampleRate < 2 ^ 64)
    (h32 : elapsedUs start current * sampleRate / 1000000 < 2 ^ 32) :
    pollIndex start current sampleRate = elapsedUs start current * sampleRate / 1000000 := by
  unfold pollIndex
  rw [Nat.mod_eq_of_lt h64, Nat.mod_eq_of_lt h32]

theorem waitLoop_length_lt {sampleRate start temp : Nat} {polls : List Nat}
    {r : Nat × List Nat} (h : waitLoop sampleRate start temp temp polls = some r) :
    r.2.length < polls.length := by
  cases polls with
  | nil =>
    rw [waitLoop, if_pos (le_refl temp)] at h
    exact absurd h (by simp)
  | cons current rest =>
    rw [waitLoop, if_pos (le_refl temp)] at h
    exact Nat.lt_succ_of_le (waitLoop_length _ _ _ _ _ _ h)

theorem waitLoop_append_iff (sampleRate start temp current : Nat) (rest : List Nat) :
    ∀ pre : List Nat,
      waitLoop sampleRate start temp temp (pre ++ current :: rest) =
          some (pollIndex start current sampleRate, rest) ↔
        (∀ x ∈ pre, pollIndex start x sampleRate ≤ temp) ∧
          temp < pollIndex start current sampleRate := by
  intro pre
  induction pre with
  | nil =>
    rw [List.nil_append, waitLoop_cons]
    split
    · rename_i hge
      constructor
      · intro h
        exact absurd (waitLoop_length_lt h) (lt_irrefl _)
      · intro h
        exact absurd h.2 (not_lt.mpr hge)
    · rename_i hlt
      constructor
      · intro _
        exact ⟨fun x hx => absurd hx (List.not_mem_nil _), not_le.mp hlt⟩
      · intro _
        rfl
  | cons first others ih =>
    rw [List.cons_append, waitLoop_cons]
    split
    · rename_i hge
      rw [ih]
      constructor
      · intro h
        refine ⟨fun x hx => ?_, h.2⟩
        rcases List.mem_cons.mp hx with rfl | hx'
        · exact hge
        · exact h.1 x hx'
      · intro h
        exact ⟨fun x hx => h.1 x (List.mem_cons_of_mem _ hx), h.2⟩
    · rename_i hlt
      constructor
      · intro h
        have hlen := congrArg (fun r : Nat × List Nat => r.2.length) (Option.some.inj h)
        simp only [List.length_append, List.length_cons] at hlen
        omega
      · intro h
        exact absurd (h.1 first (List.mem_cons_self _ _)) hlt

/-! ## Claims about construction and destruction -/

/-- C6 (as amended): the constructor checks no range. For a positive frequency `f` (in MHz)
whose construction returns an object: when `2 048 000 / (2^24 - 1) ≤ f ≤ 4 096 000` the
stored base divisor is strictly positive and below `2^24`; when `f ≥ 8 192 000` it is 0;
when `f ≤ 2 048 000 / 2^24` it is `2^24` or more. -/
theorem clockDivisor_field_range (p : Platform) (f : ℚ) (t : Transmitter) (hf : 0 < f)
    (h : (construct p f).1 = .built t) :
    (2048000 / (2 ^ 24 - 1) ≤ f → f ≤ 4096000 →
        0 < t.clockDivisor ∧ t.clockDivisor < 2 ^ 24) ∧
      (8192000 ≤ f → t.clockDivisor = 0) ∧
      (f ≤ 2048000 / 2 ^ 24 → 2 ^ 24 ≤ t.clockDivisor) := by
  have hd := (construct_built h).2.2
  refine ⟨?_, ?_, ?_⟩
  · intro hlo hhi
    have h1 : (((2 : ℕ) : ℚ)) / 4 ≤ 2048000 / f := by
      rw [le_div_iff₀ hf]
      push_cast
      linarith
    have h2 : (2048000 : ℚ) / f ≤ (((4 * (2 ^ 24 - 1) : ℕ) : ℚ)) / 4 := by
      rw [div_le_iff₀ hf]
      rw [div_le_iff₀ (by norm_num)] at hlo
      push_cast
      linarith
    obtain ⟨d, hd2, hd3, hd4⟩ := baseDivisor_bracket hf (by decide) h1 h2
    rw [hd] at hd2
    have hdd : t.clockDivisor = d := Option.some.inj hd2
    rw [hdd]
    constructor <;> omega
  · intro hbig
    have hq : (2048000 : ℚ) / f ≤ 1 / 4 := by
      rw [div_le_iff₀ hf]
      linarith
    have h0 := baseDivisor_of_small hf hq
    rw [hd] at h0
    exact Option.some.inj h0
  · intro hsmall
    have h1 : (((2 ^ 26 : ℕ) : ℚ)) / 4 ≤ 2048000 / f := by
      rw [le_div_iff₀ hf]
      rw [le_div_iff₀ (by norm_num)] at hsmall
      push_cast
      linarith
    have h2 := le_baseDivisor (by decide) hd h1
    omega

/-- C6, witness: at 100 MHz the object is built and its base divisor 20480 is in the field. -/
theorem clockDivisor_field_range_witness :
    (construct ⟨3, some 0, 0⟩ 100).1 = .built ⟨0, 20480⟩ ∧
      (0 : Nat) < 20480 ∧ (20480 : Nat) < 2 ^ 24 := by
  have hb : baseDivisor 100 = some 20480 :=
    baseDivisor_of_exact (by norm_num) (by decide) (by norm_num)
  have hc : (construct ⟨3, some 0, 0⟩ 100).1 = .built ⟨0, 20480⟩ := by
    rw [construct_of_mapped (100 : ℚ) (by decide : (0 : Int) ≤ (3 : Int)) rfl, hb]
  exact ⟨hc, (clockDivisor_field_range ⟨3, some 0, 0⟩ 100 ⟨0, 20480⟩ (by norm_num) hc).1
    (by norm_num) (by norm_num)⟩

/-- C6, counterexample: the positive frequency 10 000 000 is accepted and gives the base
divisor 0, which is not strictly positive; the positive frequency 1/16 is accepted and
gives 32 768 000, which is not below `2^24`. -/
theorem clockDivisor_out_of_field_counterexample :
    (construct ⟨3, some 0, 0⟩ 10000000).1 = .built ⟨0, 0⟩ ∧
      (construct ⟨3, some 0, 0⟩ (1 / 16)).1 = .built ⟨0, 32768000⟩ ∧
      ¬((32768000 : Nat) < 2 ^ 24) := by
  have hb0 : baseDivisor 10000000 = some 0 :=
    baseDivisor_of_small (by norm_num) (by norm_num)
  have hb1 : baseDivisor (1 / 16) = some 32768000 :=
    baseDivisor_of_exact (by norm_num) (by decide) (by norm_num)
  refine ⟨?_, ?_, by decide⟩
  · rw [construct_of_mapped (10000000 : ℚ) (by decide : (0 : Int) ≤ (3 : Int)) rfl, hb0]
  · rw [construct_of_mapped (1 / 16 : ℚ) (by decide : (0 : Int) ≤ (3 : Int)) rfl, hb1]

/-- C7: a construction whose `open` and `mmap` succeed makes exactly two register writes.
The first stores to the GPIO function-select register (offset 0x00200000) the previous
value with bits 14-12 replaced by 0b100 and all other bits kept; the second stores
0x5A000216 to the clock control register (offset 0x00101070): password 0x5A in bits 31-24,
MASH 1 in bits 10-9, enable bit 4, source 6 in bits 3-0, nothing else. -/
theorem construct_register_writes (p : Platform) (f : ℚ) (base : Nat) (hfd : 0 ≤ p.memFd)
    (hmap : p.peripheralsMap = some base) (h32 : p.gpfsel < 2 ^ 32) :
    registerWrites (construct p f).2 =
        [(0x00200000, gpioWord p.gpfsel), (0x00101070, 0x5A000216)] ∧
      (∀ k, (gpioWord p.gpfsel).testBit k =
        if k = 14 then true else if k = 13 ∨ k = 12 then false else p.gpfsel.testBit k) ∧
      (0x5A000216 : Nat) >>> 24 = 0x5A ∧
      ((0x5A000216 : Nat) >>> 9) &&& 3 = 1 ∧
      (0x5A000216 : Nat).testBit 4 = true ∧
      (0x5A000216 : Nat) &&& 0xF = 6 ∧
      (0x5A000216 : Nat) = 0x5A * 2 ^ 24 + 1 * 2 ^ 9 + 2 ^ 4 + 6 := by
  refine ⟨?_, fun k => gpioWord_testBit h32 k, by decide, by decide, by decide, by decide,
    by decide⟩
  rw [construct_of_mapped f hfd hmap]
  rfl

/-- C7, witness: with every bit of the function-select register set beforehand, the two
writes are 0xFFFFCFFF to the GPIO register and 0x5A000216 to the clock control register. -/
theorem construct_register_writes_witness :
    registerWrites (construct ⟨3, some 0, 0xFFFFFFFF⟩ 100).2 =
      [(0x00200000, 0xFFFFCFFF), (0x00101070, 0x5A000216)] := by
  have h := (construct_register_writes ⟨3, some 0, 0xFFFFFFFF⟩ 100 0 (by decide) rfl
    (by decide)).1
  rw [h]
  decide

/-- C8: the constructor raises exactly when `open` fails or `mmap` returns `MAP_FAILED`;
when it raises, its log holds no register read or write and no object results. -/
theorem construct_raises_iff (p : Platform) (f : ℚ) :
    ((construct p f).1 = .raised ↔ (p.memFd < 0 ∨ p.peripheralsMap = none)) ∧
      ((construct p f).1 = .raised →
        (∀ e ∈ (construct p f).2, e.isRegisterAccess = false) ∧
          registerWrites (construct p f).2 = [] ∧
          ∀ t, (construct p f).1 ≠ .built t) := by
  by_cases hfd : p.memFd < 0
  · have hc : construct p f =
        (.raised, [.openMem, .print "Error: sudo privileges are required"]) := by
      unfold construct
      rw [if_pos hfd]
    rw [hc]
    refine ⟨⟨fun _ => Or.inl hfd, fun _ => rfl⟩, fun _ => ⟨?_, rfl, ?_⟩⟩
    · intro e he
      simp only [List.mem_cons, List.mem_singleton, List.not_mem_nil, or_false] at he
      rcases he with rfl | rfl <;> rfl
    · intro t ht
      exact absurd ht (by simp)
  · cases hmap : p.peripheralsMap with
    | none =>
      have hc : construct p f =
          (.raised, [.openMem, .mmap 0x002FFFFF BCM2835_BASE, .close,
            .print "Error: cannot obtain access to peripherals (mmap error)"]) := by
        unfold construct
        rw [if_neg hfd, hmap]
      rw [hc]
      refine ⟨⟨fun _ => Or.inr rfl, fun _ => rfl⟩, fun _ => ⟨?_, rfl, ?_⟩⟩
      · intro e he
        simp only [List.mem_cons, List.mem_singleton, List.not_mem_nil, or_false] at he
        rcases he with rfl | rfl | rfl | rfl <;> rfl
      · intro t ht
        exact absurd ht (by simp)
    | some base =>
      have hne : (construct p f).1 ≠ .raised := by
        rw [construct_of_mapped f (not_lt.mp hfd) hmap]
        cases baseDivisor f <;> simp
      refine ⟨⟨fun h => absurd h hne, ?_⟩, fun h => absurd h hne⟩
      rintro (h | h)
      · exact absurd h hfd
      · exact absurd h (by simp)

/-- C8, witness: a failing `open` raises, and then the log holds no register access. -/
theorem construct_raises_iff_witness :
    (construct ⟨-1, some 0, 0⟩ 100).1 = .raised ∧
      registerWrites (construct ⟨-1, some 0, 0⟩ 100).2 = [] := by
  have h := construct_raises_iff ⟨-1, some 0, 0⟩ 100
  have hr : (construct ⟨-1, some 0, 0⟩ 100).1 = .raised := h.1.mpr (Or.inl (by decide))
  exact ⟨hr, (h.2 hr).2.1⟩

/-- C5: for every object, the destructor makes exactly one register write, before the
unmapping: 0x5A000000 to the clock control register (offset 0x00101070), that is the
password alone with the enable bit 4 clear; the divisor register is not written. -/
theorem destroy_resets_clock (t : Transmitter) :
    destroy t = [.write32 0x00101070 0x5A000000, .munmap 0x002FFFFF] ∧
      registerWrites (destroy t) = [(CLK0_BASE, 0x5A000000)] ∧
      (0x5A000000 : Nat) >>> 24 = 0x5A ∧
      (0x5A000000 : Nat) &&& 0x00FFFFFF = 0 ∧
      (0x5A000000 : Nat).testBit 4 = false ∧
      ∀ value, (CLK0D_BASE, value) ∉ registerWrites (destroy t) := by
  refine ⟨rfl, rfl, by decide, by decide, by decide, ?_⟩
  intro value h
  simp [destroy, registerWrites, CLK0D_BASE, CLK0_BASE] at h

/-! ## Claims about `transmit` -/

/-- C9: for every sample buffer, sample rate and sequence of counter readings, the sample
indices at which `transmit` writes the divisor register are strictly increasing and all
below the buffer length; the first index written is 0, and it is written whenever the
buffer is non-empty (its length fitting `unsigned int` and the conversion of sample 0 to
`int` being defined); an empty buffer gives no register write. -/
theorem transmit_indices_increasing (t : Transmitter) (samples : List ℚ)
    (sampleRate start : Nat) (polls : List Nat) :
    (transmit t samples sampleRate start polls).indices.Pairwise (· < ·) ∧
      (∀ i ∈ (transmit t samples sampleRate start polls).indices, i < samples.length) ∧
      (∀ i, (transmit t samples sampleRate start polls).indices.head? = some i → i = 0) ∧
      (∀ sample, samples.head? = some sample → samples.length < 2 ^ 32 →
        -(2 ^ 31) ≤ roundHalfAway (sample * 16) → roundHalfAway (sample * 16) < 2 ^ 31 →
        (transmit t samples sampleRate start polls).indices.head? = some 0) ∧
      (samples.length = 0 → (transmit t samples sampleRate start polls).writes = []) := by
  refine ⟨?_, ?_, ?_, ?_, ?_⟩
  · exact outerStep_indices_pairwise
      (fun e he => lt_of_le_of_lt (Nat.zero_le _) (pollLoop_mem _ _ _ _ _ _ e he).1)
      (pollLoop_indices_pairwise _ _ _ _ _ _)
  · intro i hi
    obtain ⟨e, he, rfl⟩ := List.mem_map.mp hi
    exact lt_of_lt_of_le (transmit_writes_mem he).1 (Nat.mod_le _ _)
  · intro i hi
    unfold Run.indices transmit at hi
    rcases outerStep_cases t.clockDivisor samples 0
      (pollLoop t.clockDivisor samples sampleRate start 0 polls) with h | ⟨word, h⟩
    · simp only [h, List.map_nil, List.head?_nil] at hi
      exact absurd hi (by simp)
    · simp only [h, List.map_cons, List.head?_cons, Option.some.injEq] at hi
      exact hi.symm
  · intro sample hs hlen hlo hhi
    cases samples with
    | nil => exact absurd hs (by simp)
    | cons first others =>
      have hfirst : first = sample := by simpa using hs
      subst hfirst
      have hword := @modulate_eq t.clockDivisor (first :: others) 0 first _ (by simp) rfl
        hlo hhi
      have hlt : 0 < (first :: others).length % 2 ^ 32 := by
        rw [Nat.mod_eq_of_lt hlen]
        exact Nat.succ_pos _
      unfold Run.indices transmit
      simp only [outerStep_of_word _ hlt hword, List.map_cons, List.head?_cons]
  · intro h0
    unfold transmit
    have hge : ¬0 < samples.length % 2 ^ 32 := by
      rw [h0]
      decide
    simp only [outerStep_of_ge _ hge]

/-- C9, witness: with samples [0, 1, -1], rate 1 and a counter that jumps from 0 to 2.5 s,
back to 1 s and on to 3 s, the first index written is 0. -/
theorem transmit_indices_increasing_witness :
    (transmit ⟨0, 20480⟩ [0, 1, -1] 1 0 [2500000, 1000000, 3000000]).indices.head? =
      some 0 := by
  have h := (transmit_indices_increasing ⟨0, 20480⟩ [0, 1, -1] 1 0
    [2500000, 1000000, 3000000]).2.2.2.1 0 rfl (by decide)
  have hr : roundHalfAway ((0 : ℚ) * 16) = 0 := by
    simpa using roundHalfAway_intCast_mul 0
  rw [hr] at h
  exact h (by decide) (by decide)

/-- C2 (as amended): for every sample buffer of length L below `2^32`, every sample rate and
every sequence of counter readings for which `transmit` returns and in which the index
computed at each poll exceeds the index computed at the previous poll (0 before the first
poll) by at most 1, the call writes the divisor register exactly L times, once for each
index 0, 1, ..., L-1 in that order. -/
theorem transmit_writes_every_index (t : Transmitter) (samples : List ℚ)
    (sampleRate start : Nat) (polls : List Nat) (hlen : samples.length < 2 ^ 32)
    (hret : (transmit t samples sampleRate start polls).status = .returned)
    (hstep : List.Chain (fun a b => b ≤ a + 1) 0
      (polls.map (fun current => pollIndex start current sampleRate))) :
    (transmit t samples sampleRate start polls).indices = List.range samples.length := by
  unfold Run.indices
  unfold transmit at hret ⊢
  simp only at hret ⊢
  rcases outerStep_returned hret with ⟨hge, hnil⟩ | ⟨hin, hlater, hcons⟩
  · rw [hnil]
    rw [Nat.mod_eq_of_lt hlen] at hge
    have h0 : samples.length = 0 := by omega
    rw [h0]
    rfl
  · rw [hcons, pollLoop_indices_range _ _ _ _ _ _ _ (le_refl 0) hin hstep hlater,
      Nat.mod_eq_of_lt hlen, List.range_eq_range']
    rw [Nat.mod_eq_of_lt hlen] at hin
    have hn : samples.length = (samples.length - (0 + 1)) + 1 := by omega
    nth_rewrite 2 [hn]
    rw [List.range'_succ]

theorem modulate_demo_0 : modulate 20480 [0, 1, -1] 0 = some (0x5A000000 + 20480) := by
  have hr : roundHalfAway ((0 : ℚ) * 16) = 0 := by simpa using roundHalfAway_intCast_mul 0
  rw [modulate_eq (by simp) hr (by decide) (by decide)]
  decide

theorem modulate_demo_1 : modulate 20480 [0, 1, -1] 1 = some (0x5A000000 + 20464) := by
  have hr : roundHalfAway ((1 : ℚ) * 16) = 16 := by simpa using roundHalfAway_intCast_mul 1
  rw [modulate_eq (by simp) hr (by decide) (by decide)]
  decide

theorem modulate_demo_2 : modulate 20480 [0, 1, -1] 2 = some (0x5A000000 + 20496) := by
  have hr : roundHalfAway ((-1 : ℚ) * 16) = -16 := by
    simpa using roundHalfAway_intCast_mul (-1)
  rw [modulate_eq (by simp) hr (by decide) (by decide)]
  decide

theorem transmit_demo_paced :
    transmit ⟨0, 20480⟩ [0, 1, -1] 1 0 [1000000, 2000000, 3000000] =
      ⟨⟨0, 20480⟩,
        [(0, ⟨0x00101074, 0x5A000000 + 20480⟩), (1, ⟨0x00101074, 0x5A000000 + 20464⟩),
          (2, ⟨0x00101074, 0x5A000000 + 20496⟩)],
        .returned⟩ := by
  have h1 : pollIndex 0 1000000 1 = 1 := by decide
  have h2 : pollIndex 0 2000000 1 = 2 := by decide
  have h3 : pollIndex 0 3000000 1 = 3 := by decide
  simp [transmit, pollLoop, outerStep, h1, h2, h3, modulate_demo_0, modulate_demo_1,
    modulate_demo_2, CLK0D_BASE]

theorem transmit_demo_late :
    transmit ⟨0, 20480⟩ [0, 1, -1] 1 0 [3000000] =
      ⟨⟨0, 20480⟩, [(0, ⟨0x00101074, 0x5A000000 + 20480⟩)], .returned⟩ := by
  have h3 : pollIndex 0 3000000 1 = 3 := by decide
  simp [transmit, pollLoop, outerStep, h3, modulate_demo_0, CLK0D_BASE]

/-- C2, witness: samples [0.0, 1.0, -1.0] at rate 1, the counter read at 0 s, 1 s, 2 s and
3 s: the call returns after exactly three writes, for the indices 0, 1, 2. -/
theorem transmit_writes_every_index_witness :
    (transmit ⟨0, 20480⟩ [0, 1, -1] 1 0 [1000000, 2000000, 3000000]).indices = [0, 1, 2] := by
  have h1 : pollIndex 0 1000000 1 = 1 := by decide
  have h2 : pollIndex 0 2000000 1 = 2 := by decide
  have h3 : pollIndex 0 3000000 1 = 3 := by decide
  have h := transmit_writes_every_index ⟨0, 20480⟩ [0, 1, -1] 1 0
    [1000000, 2000000, 3000000] (by decide) (by rw [transmit_demo_paced])
    (by simp [h1, h2, h3])
  rw [h]
  rfl

/-- C2, counterexample: samples [0.0, 1.0, -1.0] at the positive rate 1 with the
non-decreasing counter readings 0 and 3 000 000: `transmit` returns after a single write,
for index 0; the indices 1 and 2 are skipped. -/
theorem transmit_skips_indices_counterexample :
    (transmit ⟨0, 20480⟩ [0, 1, -1] 1 0 [3000000]).status = .returned ∧
      (transmit ⟨0, 20480⟩ [0, 1, -1] 1 0 [3000000]).indices = [0] ∧
      (transmit ⟨0, 20480⟩ [0, 1, -1] 1 0 [3000000]).indices ≠
        List.range ([0, 1, -1] : List ℚ).length ∧
      List.Pairwise (· ≤ ·) [0, 3000000] := by
  rw [transmit_demo_late]
  refine ⟨rfl, rfl, by decide, by decide⟩

theorem elapsedUs_eq_emod (start x : Nat) :
    (elapsedUs start x : ℤ) = ((x : ℤ) - (start : ℤ)) % 2 ^ 64 := by
  unfold elapsedUs
  omega

theorem elapsedUs_eq_sub {start x : Nat} (h1 : start ≤ x) (h2 : x < 2 ^ 64) :
    elapsedUs start x = x - start := by
  unfold elapsedUs
  omega

/-- C3: `elapsedUs` is the unsigned 64-bit difference `counter - start`, equal to
`counter - start` for a counter reading at or after `start`. After the write for index
`i`, the wait loop ends at the first poll whose `elapsedUs` gives
`floor(elapsedUs * R / 1 000 000) ≥ i + 1`, and at no earlier poll; while
`elapsedUs * R < 2^64` and the quotient is below `2^32`, the index computed at a poll is
`floor(elapsedUs * R / 1 000 000)`, a function of `elapsedUs` and `R` alone; and the run
of `transmit` goes on from that poll with the outer test on that index. -/
theorem waitLoop_ends_at_first_poll (cd : Nat) (samples : List ℚ) (sampleRate start i : Nat)
    (pre : List Nat) (current : Nat) (rest : List Nat)
    (hfit : ∀ x ∈ pre ++ [current], elapsedUs start x * sampleRate < 2 ^ 64 ∧
      elapsedUs start x * sampleRate / 1000000 < 2 ^ 32) :
    (∀ x, (elapsedUs start x : ℤ) = ((x : ℤ) - (start : ℤ)) % 2 ^ 64) ∧
      (∀ x, start ≤ x → x < 2 ^ 64 → elapsedUs start x = x - start) ∧
      (∀ x ∈ pre ++ [current],
        pollIndex start x sampleRate = elapsedUs start x * sampleRate / 1000000) ∧
      (waitLoop sampleRate start i i (pre ++ current :: rest) =
          some (elapsedUs start current * sampleRate / 1000000, rest) ↔
        (∀ x ∈ pre, elapsedUs start x * sampleRate / 1000000 < i + 1) ∧
          i + 1 ≤ elapsedUs start current * sampleRate / 1000000) ∧
      (∀ start2 current2, elapsedUs start2 current2 = elapsedUs start current →
        pollIndex start2 current2 sampleRate = pollIndex start current sampleRate) ∧
      ((∀ x ∈ pre, elapsedUs start x * sampleRate / 1000000 < i + 1) ∧
          i + 1 ≤ elapsedUs start current * sampleRate / 1000000 →
        pollLoop cd samples sampleRate start i (pre ++ current :: rest) =
          outerStep cd samples (elapsedUs start current * sampleRate / 1000000)
            (pollLoop cd samples sampleRate start
              (elapsedUs start current * sampleRate / 1000000) rest)) := by
  have hidx : ∀ x ∈ pre ++ [current],
      pollIndex start x sampleRate = elapsedUs start x * sampleRate / 1000000 :=
    fun x hx => pollIndex_eq_floor (hfit x hx).1 (hfit x hx).2
  have hcur := hidx current (by simp)
  have hiff : waitLoop sampleRate start i i (pre ++ current :: rest) =
        some (elapsedUs start current * sampleRate / 1000000, rest) ↔
      (∀ x ∈ pre, elapsedUs start x * sampleRate / 1000000 < i + 1) ∧
        i + 1 ≤ elapsedUs start current * sampleRate / 1000000 := by
    rw [← hcur, waitLoop_append_iff]
    constructor
    · intro h
      refine ⟨fun x hx => ?_, h.2⟩
      rw [← hidx x (by simp [hx])]
      exact Nat.lt_succ_of_le (h.1 x hx)
    · intro h
      refine ⟨fun x hx => ?_, h.2⟩
      rw [hidx x (by simp [hx])]
      exact Nat.le_of_lt_succ (h.1 x hx)
  refine ⟨elapsedUs_eq_emod start, fun x h1 h2 => elapsedUs_eq_sub h1 h2, hidx, hiff, ?_, ?_⟩
  · intro start2 current2 h
    unfold pollIndex
    rw [h]
  · intro h
    rw [pollLoop_eq_waitLoop, hiff.mpr h]

/-- C3, witness: with the counter at 7 on entry, at rate 1 after the write for index 0, the
polls reading 12 and 1 000 006 (5 us and 999 999 us elapsed) keep the loop waiting and the
poll reading 1 000 007 (1 000 000 us elapsed) ends it with index 1. -/
theorem waitLoop_ends_at_first_poll_witness :
    waitLoop 1 7 0 0 ([12, 1000006] ++ 1000007 :: [9]) = some (1, [9]) ∧
      elapsedUs 7 12 = 5 ∧ elapsedUs 7 1000006 = 999999 ∧ elapsedUs 7 1000007 = 1000000 := by
  have h := waitLoop_ends_at_first_poll 20480 [0, 1, -1] 1 7 0 [12, 1000006] 1000007 [9]
    (by
      intro x hx
      simp only [List.cons_append, List.nil_append, List.mem_cons, List.mem_singleton,
        List.not_mem_nil, or_false] at hx
      rcases hx with rfl | rfl | rfl <;> decide)
  have hw := h.2.2.2.1.mpr ⟨by
    intro x hx
    simp only [List.mem_cons, List.mem_singleton, List.not_mem_nil, or_false] at hx
    rcases hx with rfl | rfl <;> decide, by decide⟩
  have he : elapsedUs 7 1000007 * 1 / 1000000 = 1 := by decide
  rw [he] at hw
  exact ⟨hw, h.2.1 12 (by decide) (by decide), h.2.1 1000006 (by decide) (by decide),
    h.2.1 1000007 (by decide) (by decide)⟩

/-- C4: every register write of `transmit` goes to the divisor register (offset
0x00101074); for the committed sample `s`, when `d = clockDivisor - round(16 * s)` satisfies
`0 ≤ d < 2^24` the word written is `0x5A000000 + d`, the rounding being half away from
zero: `s = 0.5` gives offset 8 and the word `0x5A000000 + clockDivisor - 8`, `s = -0.5`
gives offset -8 and the word `0x5A000000 + clockDivisor + 8`; the object is unchanged. -/
theorem transmit_writes_divisor_word (t : Transmitter) (samples : List ℚ)
    (sampleRate start : Nat) (polls : List Nat) :
    (∀ e ∈ (transmit t samples sampleRate start polls).writes,
        e.2.offset = 0x00101074 ∧
          ∃ s, samples[e.1]? = some s ∧
            ∀ d : ℤ, d = (t.clockDivisor : ℤ) - roundHalfAway (s * 16) → 0 ≤ d → d < 2 ^ 24 →
              (e.2.value : ℤ) = 0x5A000000 + d) ∧
      roundHalfAway ((1 / 2 : ℚ) * 16) = 8 ∧
      roundHalfAway ((-1 / 2 : ℚ) * 16) = -8 ∧
      (8 ≤ t.clockDivisor → t.clockDivisor < 2 ^ 24 + 8 →
        modulate t.clockDivisor [1 / 2] 0 = some (0x5A000000 + t.clockDivisor - 8)) ∧
      (t.clockDivisor + 8 < 2 ^ 24 →
        modulate t.clockDivisor [-1 / 2] 0 = some (0x5A000000 + t.clockDivisor + 8)) ∧
      (transmit t samples sampleRate start polls).self = t := by
  have hword : ∀ (s : ℚ) (d : ℤ), d = (t.clockDivisor : ℤ) - roundHalfAway (s * 16) →
      0 ≤ d → d < 2 ^ 24 →
      (((0x5A <<< 24) ||| wrapSub32 t.clockDivisor (intToUnsigned (roundHalfAway (s * 16))) :
        Nat) : ℤ) = 0x5A000000 + d := by
    intro s d hd h0 h24
    have hw := wrapSub32_intToUnsigned hd h0 (by omega)
    have hlt : wrapSub32 t.clockDivisor (intToUnsigned (roundHalfAway (s * 16))) < 2 ^ 24 := by
      omega
    rw [password_or hlt]
    push_cast
    rw [hw]
  have hpos : roundHalfAway ((1 / 2 : ℚ) * 16) = 8 := by
    rw [roundHalfAway_of_nonneg (by norm_num), Int.floor_eq_iff]
    constructor <;> norm_num
  have hneg : roundHalfAway ((-1 / 2 : ℚ) * 16) = -8 := by
    unfold roundHalfAway
    rw [if_neg (by norm_num), neg_eq_iff_eq_neg, Int.floor_eq_iff]
    constructor <;> norm_num
  refine ⟨?_, hpos, hneg, ?_, ?_, rfl⟩
  · intro e he
    obtain ⟨_, hoff, hmod⟩ := transmit_writes_mem he
    obtain ⟨s, hs, _, _, hval⟩ := modulate_eq_some hmod
    refine ⟨hoff, s, hs, ?_⟩
    intro d hd h0 h24
    rw [hval]
    exact hword s d hd h0 h24
  · intro h8 h24
    rw [modulate_eq (by simp) hpos (by decide) (by decide)]
    have h := hword (1 / 2) ((t.clockDivisor : ℤ) - 8) (by rw [hpos]) (by omega) (by omega)
    rw [hpos] at h
    congr 1
    omega
  · intro h24
    rw [modulate_eq (by simp) hneg (by decide) (by decide)]
    have h := hword (-1 / 2) ((t.clockDivisor : ℤ) + 8) (by rw [hneg]; ring) (by omega)
      (by omega)
    rw [hneg] at h
    congr 1
    omega

/-- C4, witness: with base divisor 20480 the sample 0.5 is written as 0x5A000000 + 20472. -/
theorem transmit_writes_divisor_word_witness :
    modulate 20480 [1 / 2] 0 = some (0x5A000000 + 20472) :=
  (transmit_writes_divisor_word ⟨0, 20480⟩ [1 / 2] 1 0 []).2.2.2.1 (by decide) (by decide)

/-- C10: the word written by `transmit` is not masked to the divisor field. For every base
divisor `c` and every rounded offset `o = round(16 * s)` with `c < o ≤ c + 2^24`, the
unsigned subtraction `c - o` wraps to `2^32 - (o - c)`; the word, `0x5A000000` OR that
value, is the one `transmit` writes (the conversion to `int` being defined for
`o < 2^31`), and its bits 31-24 hold 0xFF, not the password 0x5A. -/
theorem transmit_word_not_masked (c : Nat) (samples : List ℚ) (i : Nat) (s : ℚ)
    (hs : samples[i]? = some s) (hlt : (c : ℤ) < roundHalfAway (s * 16))
    (hle : roundHalfAway (s * 16) ≤ (c : ℤ) + 2 ^ 24) :
    (wrapSub32 c (intToUnsigned (roundHalfAway (s * 16))) : ℤ) =
        2 ^ 32 - (roundHalfAway (s * 16) - c) ∧
      (roundHalfAway (s * 16) < 2 ^ 31 →
        modulate c samples i =
          some (0x5A000000 ||| wrapSub32 c (intToUnsigned (roundHalfAway (s * 16))))) ∧
      (0x5A000000 ||| wrapSub32 c (intToUnsigned (roundHalfAway (s * 16)))) >>> 24 = 0xFF ∧
      (0x5A000000 ||| wrapSub32 c (intToUnsigned (roundHalfAway (s * 16)))) >>> 24 ≠ 0x5A ∧
      ∀ (peripherals sampleRate start : Nat) (polls : List Nat),
        ∀ e ∈ (transmit ⟨peripherals, c⟩ samples sampleRate start polls).writes,
          e.1 = i → e.2.offset = CLK0D_BASE ∧ e.2.value >>> 24 = 0xFF := by
  have hwrap := wrapSub32_wrap hlt (by omega : roundHalfAway (s * 16) ≤ (c : ℤ) + 2 ^ 32)
  have htop : (0x5A000000 ||| wrapSub32 c (intToUnsigned (roundHalfAway (s * 16)))) >>> 24
      = 0xFF := by
    have hp : (0x5A000000 : Nat) = 0x5A <<< 24 := by decide
    rw [hp]
    exact password_or_top (by omega) (by omega)
  refine ⟨hwrap, ?_, htop, ?_, ?_⟩
  · intro hint
    rw [modulate_eq hs rfl (by omega) hint]
    rfl
  · rw [htop]
    decide
  · intro peripherals sampleRate start polls e he hei
    obtain ⟨_, hoff, hmod⟩ := transmit_writes_mem he
    obtain ⟨s2, hs2, _, _, hval⟩ := modulate_eq_some hmod
    rw [hei, hs] at hs2
    rw [← Option.some.inj hs2] at hval
    refine ⟨hoff, ?_⟩
    rw [hval]
    exact htop

/-- C10, witness: with base divisor 0 the sample 1.0 is written as 0xFFFFFFF0. -/
theorem transmit_word_not_masked_witness :
    modulate 0 [1] 0 = some 0xFFFFFFF0 ∧ (0xFFFFFFF0 : Nat) >>> 24 = 0xFF := by
  have hr : roundHalfAway ((1 : ℚ) * 16) = 16 := by simpa using roundHalfAway_intCast_mul 1
  have h := transmit_word_not_masked 0 [1] 0 1 (by simp) (by rw [hr]; decide)
    (by rw [hr]; decide)
  rw [hr] at h
  refine ⟨?_, by decide⟩
  rw [h.2.1 (by decide)]
  decide

end FmTransmitter
